import Mathlib

attribute [local semireducible] Rat.add Rat.sub Rat.mul Rat.inv Rat.ofScientific

/-!
# Verification of the playcoach-v2 note post-processing core

Shallow embedding of `src/transcribe/filters.py` and `src/transcribe/frame.py`.

Conventions of the embedding:
* Python floats (times, durations, ratios) are modelled as `ℚ`; MIDI pitches and
  velocities (Python ints) as `ℤ`.
* A raw note-event dict `{onset_time, offset_time, midi_note, velocity}` is the
  structure `Event`.  `dict(ev)` copies in the source only ever rewrite
  `onset_time` / `offset_time`, so `Event` carries exactly the four fields the
  core reads.
* Python `sorted` is a stable sort; it is embedded as `List.insertionSort`,
  which is stable and sorted for a total transitive relation.
* Python `dict` / `defaultdict` grouping preserves first-insertion key order;
  it is embedded as an association list built in first-occurrence order
  (`groupByKey`, `updateAssoc`), or — where only the final per-key aggregate is
  read — as the extensionally equal aggregate function (counts, sums, best
  element).
* Python `set` becomes `Finset ℤ`; `tuple(sorted(s))` becomes `sortInt`.
* Class attributes of `FrameChordExtractor` (`_MIN_ACTIVE_NOTES`,
  `_MIN_JACCARD`, `_MIN_SEGMENT_DUR`) are instance-overridable attribute
  lookups in Python; they are modelled as explicit parameters whose class
  defaults are the constants below.
-/

/-- A raw note event (the dict produced by the external detection model). -/
structure Event where
  onset : ℚ
  offset : ℚ
  midi : ℤ
  velocity : ℤ
  deriving DecidableEq, Repr

/-- `FilterConfig` from `src/transcribe/filters.py`. -/
structure FilterConfig where
  enable_A : Bool := false
  enable_B : Bool := false
  enable_D : Bool := false
  cluster_window : ℚ := 4/100
  dedupe_window : ℚ := 8/100
  max_notes_per_cluster : ℕ := 6
  harmonic_velocity_ratio : ℚ := 115/100
  min_occurrences : ℕ := 2
  min_total_dur_ratio_of_max : ℚ := 10/100
  deriving DecidableEq, Repr

/-- `FrameConfig` from `src/transcribe/frame.py` (the code has exactly these
two fields; the spec lists further fields that the code does not have). -/
structure FrameConfig where
  write_chords : Bool := false
  frame_hop : ℚ := 5/100
  deriving DecidableEq, Repr

/-- `FrameChord` dataclass: `midis` is the tuple `tuple(sorted(active))`. -/
structure FrameChord where
  t0 : ℚ
  t1 : ℚ
  midis : List ℤ
  deriving DecidableEq, Repr

/-- `ChordSegment` dataclass. -/
structure ChordSegment where
  t0 : ℚ
  t1 : ℚ
  midis : List ℤ
  deriving DecidableEq, Repr

namespace NoteFilters

/-- `NoteFilters.note_duration`: `max(0.0, offset - onset)`. -/
def note_duration (ev : Event) : ℚ := max 0 (ev.offset - ev.onset)

/-- `NoteFilters.note_velocity` (events always carry a velocity here, so the
`None`/missing-key fallback of the source is the identity). -/
def note_velocity (ev : Event) : ℤ := ev.velocity

/-- Ordering used by `sort_by_onset` (`key=lambda x: float(x["onset_time"])`). -/
def onsetLe (a b : Event) : Prop := a.onset ≤ b.onset

instance : DecidableRel onsetLe := fun a b => inferInstanceAs (Decidable (a.onset ≤ b.onset))

instance : IsTotal Event onsetLe := ⟨fun a b => le_total a.onset b.onset⟩

instance : IsTrans Event onsetLe := ⟨fun _ _ _ h h2 => le_trans h h2⟩

/-- `NoteFilters.sort_by_onset`: Python `sorted` is stable, as is insertion sort. -/
def sort_by_onset (events : List Event) : List Event := List.insertionSort onsetLe events

/-- The per-event clipping of `clamp_events_to_audio`:
`offset = min(offset, audio_dur); offset = max(offset, onset)`. -/
def clipEvent (audio_dur : ℚ) (ev : Event) : Event :=
  { ev with offset := max (min ev.offset audio_dur) ev.onset }

/-- `NoteFilters.clamp_events_to_audio`: skip events with `onset >= audio_dur`,
clip the offsets of the rest, sort by onset. -/
def clamp_events_to_audio (note_events : List Event) (audio_dur : ℚ) : List Event :=
  sort_by_onset ((note_events.filter fun ev => decide (ev.onset < audio_dur)).map
    (clipEvent audio_dur))

/-- The lexicographic `(velocity, duration)` tuple comparison `sa >= sb` used by
the shared "better event" rule. -/
def scoreGe (a b : Event) : Prop :=
  note_velocity b < note_velocity a ∨
    (note_velocity a = note_velocity b ∧ note_duration b ≤ note_duration a)

instance : DecidableRel scoreGe := fun a b =>
  inferInstanceAs (Decidable (_ ∨ _))

/-- `better(a, b) = a if sa >= sb else b` (ties keep the first argument). -/
def better (a b : Event) : Event := if scoreGe a b then a else b

/-- The greedy loop body of `cluster_by_onset`; `current` is the open cluster
(never empty once started) and `anchor` its first onset. -/
def clusterLoop (w : ℚ) : List Event → ℚ → List Event → List (List Event)
  | current, _, [] => [current]
  | current, anchor, ev :: rest =>
      if ev.onset - anchor ≤ w then
        clusterLoop w (current ++ [ev]) anchor rest
      else
        current :: clusterLoop w [ev] ev.onset rest

/-- `NoteFilters.cluster_by_onset`. -/
def cluster_by_onset (note_events : List Event) (cluster_window : ℚ) :
    List (List Event) :=
  match sort_by_onset note_events with
  | [] => []
  | e :: rest => clusterLoop cluster_window [e] e.onset rest

/-- Append `a` to the group keyed `k`, creating the group at the end when the
key is new — exactly the `defaultdict(list)` insertion-order semantics. -/
def addToGroups {κ : Type} [DecidableEq κ] (gs : List (κ × List Event)) (k : κ)
    (a : Event) : List (κ × List Event) :=
  match gs with
  | [] => [(k, [a])]
  | (k', g) :: rest =>
      if k = k' then (k', g ++ [a]) :: rest else (k', g) :: addToGroups rest k a

/-- Group a list by a key, preserving first-occurrence key order and
within-group element order (Python `defaultdict(list)` fill loop). -/
def groupByKey {κ : Type} [DecidableEq κ] (key : Event → κ) (l : List Event) :
    List (κ × List Event) :=
  l.foldl (fun gs a => addToGroups gs (key a) a) []

/-- The inner scan of `dedupe_same_pitch_in_cluster` over one pitch group:
merge into the running best while onsets stay within `dedupe_window`,
otherwise flush the best and restart. -/
def samePitchScan (w : ℚ) : Event → List Event → List Event
  | best, [] => [best]
  | best, ev :: rest =>
      if |ev.onset - best.onset| ≤ w then
        samePitchScan w (better best ev) rest
      else
        best :: samePitchScan w ev rest

/-- The scan of one pitch group of `dedupe_same_pitch_in_cluster` (the group
is re-sorted by onset as in the source; an empty group never occurs). -/
def samePitchGroup (w : ℚ) (g : List Event) : List Event :=
  match sort_by_onset g with
  | [] => []
  | e :: rest => samePitchScan w e rest

/-- `NoteFilters.dedupe_same_pitch_in_cluster`. -/
def dedupe_same_pitch_in_cluster (cluster : List Event) (dedupe_window : ℚ) :
    List Event :=
  sort_by_onset
    ((groupByKey (·.midi) (sort_by_onset cluster)).flatMap fun g =>
      samePitchGroup dedupe_window g.2)

/-- The rank `(dist-to-median, -velocity, -duration)` compared ascending, as a
"may come before" relation for a stable sort. -/
def rankLe (median : ℤ) (a b : Event) : Prop :=
  |a.midi - median| < |b.midi - median| ∨
    (|a.midi - median| = |b.midi - median| ∧
      (note_velocity b < note_velocity a ∨
        (note_velocity a = note_velocity b ∧ note_duration b ≤ note_duration a)))

instance (median : ℤ) : DecidableRel (rankLe median) := fun a b =>
  inferInstanceAs (Decidable (_ ∨ _))

/-- `median_midi = mids[len(mids) // 2]` of `dedupe_pitch_class_in_cluster`
(the `getD` default is never taken: the cluster is non-empty there). -/
def medianOf (cluster : List Event) : ℤ :=
  (List.insertionSort (fun a b : ℤ => a ≤ b) (cluster.map (·.midi))).getD
    (cluster.length / 2) 0

/-- `NoteFilters.dedupe_pitch_class_in_cluster`; `sorted(evs, key=rank)[0]`
is the head of the stable sort (groups are never empty, so `head?` always
fires). -/
def dedupe_pitch_class_in_cluster (cluster : List Event) : List Event :=
  match cluster with
  | [] => []
  | _ =>
    sort_by_onset
      ((groupByKey (fun ev => ev.midi % 12) cluster).filterMap fun g =>
        (List.insertionSort (rankLe (medianOf cluster)) g.2).head?)

/-- Descending stable sort order of `keep_top_k_in_cluster`
(`key=(velocity, duration), reverse=True`). -/
def scoreDescLe (a b : Event) : Prop := scoreGe a b

instance : DecidableRel scoreDescLe := fun a b =>
  inferInstanceAs (Decidable (scoreGe a b))

/-- `NoteFilters.keep_top_k_in_cluster`. -/
def keep_top_k_in_cluster (cluster : List Event) (max_notes : ℕ) : List Event :=
  sort_by_onset ((List.insertionSort scoreDescLe cluster).take max_notes)

/-- First-binding lookup in an insertion-ordered association list
(Python dict read). -/
def lookupAssoc (m : List (ℤ × Event)) (k : ℤ) : Option Event :=
  match m with
  | [] => none
  | (k', v) :: rest => if k = k' then some v else lookupAssoc rest k

/-- In-place value update of an insertion-ordered association list
(Python dict write to an existing key keeps its position). -/
def updateAssoc (m : List (ℤ × Event)) (k : ℤ) (v : Event) : List (ℤ × Event) :=
  match m with
  | [] => [(k, v)]
  | (k', v') :: rest =>
      if k = k' then (k', v) :: rest else (k', v') :: updateAssoc rest k v

/-- The scan of `dedupe_same_midi_globally`: `last` is `last_by_midi` (an
insertion-ordered dict), `kept` the flushed events; at the end
`kept.extend(last_by_midi.values())`. -/
def globalScan (w : ℚ) : List (ℤ × Event) → List Event → List Event → List Event
  | last, kept, [] => kept ++ last.map Prod.snd
  | last, kept, ev :: rest =>
      match lookupAssoc last ev.midi with
      | none => globalScan w (last ++ [(ev.midi, ev)]) kept rest
      | some prev =>
          if |ev.onset - prev.onset| ≤ w then
            globalScan w (updateAssoc last ev.midi (better prev ev)) kept rest
          else
            globalScan w (updateAssoc last ev.midi ev) (kept ++ [prev]) rest

/-- `NoteFilters.dedupe_same_midi_globally`. -/
def dedupe_same_midi_globally (note_events : List Event) (dedupe_window : ℚ) :
    List Event :=
  sort_by_onset (globalScan dedupe_window [] [] (sort_by_onset note_events))

/-- Fold of `better` over a list: the value a `best_by_midi` dict entry holds
after all events of its pitch have been folded in. -/
def bestEvent : List Event → Option Event
  | [] => none
  | e :: rest => some (rest.foldl better e)

/-- `best_by_midi[m]` of `drop_likely_harmonics`: the best `(velocity,
duration)` representative among the cluster events of pitch `m`,
first-occurrence winning ties. -/
def bestByMidi (cluster : List Event) (m : ℤ) : Option Event :=
  bestEvent (cluster.filter fun ev => decide (ev.midi = m))

/-- The harmonic intervals tested, in source order. -/
def harmonicIntervals : List ℤ := [12, 19, 24, 31]

/-- Membership of `midi_high` in the `to_drop` set of `drop_likely_harmonics`:
some tested interval finds a represented base pitch whose representative is
loud enough (`v_base >= v_high * min_base_velocity_ratio`). -/
def isDropped (cluster : List Event) (ratio : ℚ) (p : ℤ) : Bool :=
  match bestByMidi cluster p with
  | none => false
  | some evHigh =>
      harmonicIntervals.any fun itv =>
        match bestByMidi cluster (p - itv) with
        | none => false
        | some evBase =>
            decide ((note_velocity evHigh : ℚ) * ratio ≤ (note_velocity evBase : ℚ))

/-- `NoteFilters.drop_likely_harmonics` (with the default intervals). -/
def drop_likely_harmonics (cluster : List Event)
    (min_base_velocity_ratio : ℚ := 115/100) : List Event :=
  match cluster with
  | [] => []
  | _ =>
      sort_by_onset
        (cluster.filter fun ev => !(isDropped cluster min_base_velocity_ratio ev.midi))

/-- `occ[midi]` after the counting loop of `adaptive_consistency_filter`. -/
def occOf (events : List Event) (m : ℤ) : ℕ :=
  events.countP fun ev => decide (ev.midi = m)

/-- `tot_dur[midi]` after the accumulation loop of
`adaptive_consistency_filter`. -/
def totDurOf (events : List Event) (m : ℤ) : ℚ :=
  ((events.filter fun ev => decide (ev.midi = m)).map note_duration).sum

/-- `max(tot_dur.values())`: all totals are nonnegative, so folding `max` from
`0` over the per-event totals equals the maximum over the distinct pitches. -/
def maxTotalOf (events : List Event) : ℚ :=
  (events.map fun ev => totDurOf events ev.midi).foldr max 0

/-- `NoteFilters.adaptive_consistency_filter`. -/
def adaptive_consistency_filter (note_events : List Event)
    (min_occurrences : ℕ := 2) (min_total_dur_ratio_of_max : ℚ := 10/100)
    (keep_if_velocity_ge : Option ℤ := none) : List Event :=
  match note_events with
  | [] => []
  | _ =>
    let maxTotal := maxTotalOf note_events
    let durThreshold := if 0 < maxTotal then min_total_dur_ratio_of_max * maxTotal else 0
    sort_by_onset (note_events.filter fun ev =>
      (match keep_if_velocity_ge with
        | some kv => decide (kv ≤ note_velocity ev)
        | none => false) ||
      decide (min_occurrences ≤ occOf note_events ev.midi) ||
      decide (durThreshold ≤ totDurOf note_events ev.midi))

/-- `NoteFilters.apply_ABD`. -/
def apply_ABD (note_events : List Event) (cfg : FilterConfig) : List Event :=
  let events := sort_by_onset note_events
  let events :=
    if cfg.enable_B then
      dedupe_same_midi_globally
        ((cluster_by_onset events cfg.cluster_window).flatMap fun c =>
          keep_top_k_in_cluster
            (dedupe_pitch_class_in_cluster
              (dedupe_same_pitch_in_cluster c cfg.dedupe_window))
            cfg.max_notes_per_cluster)
        cfg.dedupe_window
    else events
  let events :=
    if cfg.enable_D then
      sort_by_onset
        ((cluster_by_onset events cfg.cluster_window).flatMap fun c =>
          drop_likely_harmonics c cfg.harmonic_velocity_ratio)
    else events
  if cfg.enable_A then
    adaptive_consistency_filter events cfg.min_occurrences
      cfg.min_total_dur_ratio_of_max none
  else events

end NoteFilters

namespace FrameChordExtractor

/-- Class attribute `_MIN_ACTIVE_NOTES = 2`. -/
def MIN_ACTIVE_NOTES : ℕ := 2

/-- Class attribute `_MIN_JACCARD = 0.85`. -/
def MIN_JACCARD : ℚ := 85/100

/-- Class attribute `_MIN_SEGMENT_DUR = 0.10`. -/
def MIN_SEGMENT_DUR : ℚ := 10/100

/-- Sorting a multiset of integers ascending: well defined because permuted
lists have the same sorted form. -/
def msort (s : Multiset ℤ) : List ℤ :=
  Quot.lift (List.insertionSort (fun a b : ℤ => a ≤ b))
    (fun _ _ h =>
      List.eq_of_perm_of_sorted
        (((List.perm_insertionSort _ _).trans h).trans
          (List.perm_insertionSort _ _).symm)
        (List.sorted_insertionSort _ _) (List.sorted_insertionSort _ _)) s

/-- `tuple(sorted(s))` for a Python set of pitches. -/
def sortInt (s : Finset ℤ) : List ℤ := msort s.val

/-- `FrameChordExtractor._jaccard` (the `not u` branch is kept even though it
is subsumed by the first test). -/
def jaccard (a b : Finset ℤ) : ℚ :=
  if a = ∅ ∧ b = ∅ then 1
  else if a ∪ b = ∅ then 0
  else ((a ∩ b).card : ℚ) / ((a ∪ b).card : ℚ)

/-- One normalized note `(onset, offset, midi)` of the `norm` list. -/
structure NormEvent where
  onset : ℚ
  offset : ℚ
  midi : ℤ
  deriving DecidableEq, Repr

/-- The normalization prologue of `events_to_frame_chords`: keep only events
with `offset > onset`, as bare `(onset, offset, midi)` triples. -/
def normalize (note_events : List Event) : List NormEvent :=
  (note_events.filter fun ev => decide (ev.onset < ev.offset)).map
    fun ev => ⟨ev.onset, ev.offset, ev.midi⟩

/-- The active pitch set of the frame `[t0, t1]`:
`{midi | onset < t1 and offset > t0}`. -/
def activeSet (norm : List NormEvent) (t0 t1 : ℚ) : Finset ℤ :=
  ((norm.filter fun n => decide (n.onset < t1) && decide (t0 < n.offset)).map
    (·.midi)).toFinset

/-- The `while t < audio_dur` loop of `events_to_frame_chords`; terminates
because each step advances `t` by the positive `hop`. -/
def frameLoop (hop dur : ℚ) (hhop : 0 < hop) (minActive : ℕ)
    (norm : List NormEvent) (t : ℚ) : List FrameChord :=
  if h : t < dur then
    let t1 := min (t + hop) dur
    let active := activeSet norm t t1
    (if minActive ≤ active.card then
      [⟨t, t1, sortInt active⟩]
     else []) ++ frameLoop hop dur hhop minActive norm (t + hop)
  else []
  termination_by (⌈(dur - t) / hop⌉).toNat
  decreasing_by
    have hpos : (0 : ℚ) < (dur - t) / hop := div_pos (by linarith) hhop
    have h1 : 0 < ⌈(dur - t) / hop⌉ := Int.ceil_pos.mpr hpos
    have h2 : (dur - (t + hop)) / hop = (dur - t) / hop - 1 := by
      rw [show dur - (t + hop) = dur - t - hop from by ring, sub_div,
        div_self (ne_of_gt hhop)]
    have h3 : ⌈(dur - (t + hop)) / hop⌉ = ⌈(dur - t) / hop⌉ - 1 := by
      rw [h2, Int.ceil_sub_one]
    omega

/-- `FrameChordExtractor.events_to_frame_chords`; the `raise ValueError` is
modelled as `Except.error`. -/
def events_to_frame_chords (minActive : ℕ) (note_events : List Event)
    (audio_dur : ℚ) (cfg : FrameConfig) : Except String (List FrameChord) :=
  if h : cfg.frame_hop ≤ 0 then
    .error "frame_hop must be > 0"
  else
    .ok (frameLoop cfg.frame_hop audio_dur (not_le.mp h) minActive
      (normalize note_events) 0)

/-- `cur_set = (cur_set & fr_set) if (cur_set and fr_set) else fr_set`
(Python set truthiness = nonemptiness). -/
def codeMergedSet (curSet frSet : Finset ℤ) : Finset ℤ :=
  if curSet ≠ ∅ ∧ frSet ≠ ∅ then curSet ∩ frSet else frSet

/-- Emission guard and payload:
`if (cur_t1 - cur_t0) >= minDur and cur_set: segs.append(...)`. -/
def emitSegment (minDur cur0 cur1 : ℚ) (curSet : Finset ℤ) : List ChordSegment :=
  if minDur ≤ cur1 - cur0 ∧ curSet ≠ ∅ then
    [⟨cur0, cur1, sortInt curSet⟩]
  else []

/-- The loop of `merge_frames` over `frames[1:]`, carrying the open segment
`(cur0, cur1, curSet)`. -/
def mergeLoop (minJaccard minDur : ℚ) :
    ℚ → ℚ → Finset ℤ → List FrameChord → List ChordSegment
  | cur0, cur1, curSet, [] => emitSegment minDur cur0 cur1 curSet
  | cur0, cur1, curSet, fr :: rest =>
      let frSet := fr.midis.toFinset
      if minJaccard ≤ jaccard curSet frSet then
        mergeLoop minJaccard minDur cur0 fr.t1 (codeMergedSet curSet frSet) rest
      else
        emitSegment minDur cur0 cur1 curSet ++
          mergeLoop minJaccard minDur fr.t0 fr.t1 frSet rest

/-- `FrameChordExtractor.merge_frames`. -/
def merge_frames (minJaccard minDur : ℚ) (frames : List FrameChord) :
    List ChordSegment :=
  match frames with
  | [] => []
  | f :: rest => mergeLoop minJaccard minDur f.t0 f.t1 f.midis.toFinset rest

end FrameChordExtractor

/-! ### Spec-side definitions

Definitions written from the specification text, to be compared with the
code-side definitions above. -/

/-- Modelled from the spec: the spec's activity test for a note in a frame,
including the `frame_min_vel` velocity floor that the spec's `FrameConfig`
carries but the code's `FrameConfig` does not
(spec: a note is active if `onset < frame_end AND offset > frame_start` and
its velocity is at least `frame_min_vel`). -/
def specActiveWithMinVel (frame_min_vel : ℤ) (events : List Event) (p : ℤ)
    (t0 t1 : ℚ) : Prop :=
  ∃ ev ∈ events, ev.midi = p ∧ ev.onset < t1 ∧ t0 < ev.offset ∧
    frame_min_vel ≤ ev.velocity

instance (v : ℤ) (events : List Event) (p : ℤ) (t0 t1 : ℚ) :
    Decidable (specActiveWithMinVel v events p t0 t1) :=
  inferInstanceAs (Decidable (∃ ev ∈ events, _ ∧ _ ∧ _ ∧ _))

/-- The merged pitch set as the spec describes it: the intersection, except
that when either set is empty the other set is used. -/
def specMergedSet (a b : Finset ℤ) : Finset ℤ :=
  if a = ∅ then b else if b = ∅ then a else a ∩ b

/-- The velocities of the events of pitch `p` in a cluster. -/
def velsOf (cluster : List Event) (p : ℤ) : List ℤ :=
  (cluster.filter fun ev => decide (ev.midi = p)).map NoteFilters.note_velocity

/-- The maximum of a list of integers (`0` for the empty list; only applied to
non-empty lists). -/
def maxIntOf : List ℤ → ℤ
  | [] => 0
  | x :: xs => xs.foldl max x

/-- The spec's harmonic-drop condition for a pitch `p`: some interval of
`{12, 19, 24, 31}` finds the base pitch represented in the cluster with a
representative velocity at least `ratio` times the velocity of the
representative of `p` (a representative is best by velocity then duration, so
its velocity is the pitch's maximum velocity). -/
def specHarmonicDrop (cluster : List Event) (ratio : ℚ) (p : ℤ) : Prop :=
  velsOf cluster p ≠ [] ∧
    ∃ itv ∈ NoteFilters.harmonicIntervals, velsOf cluster (p - itv) ≠ [] ∧
      (maxIntOf (velsOf cluster p) : ℚ) * ratio ≤ (maxIntOf (velsOf cluster (p - itv)) : ℚ)

instance (cluster : List Event) (ratio : ℚ) (p : ℤ) :
    Decidable (specHarmonicDrop cluster ratio p) :=
  inferInstanceAs (Decidable (_ ∧ ∃ itv ∈ NoteFilters.harmonicIntervals, _ ∧ _))

/-! ### Concrete demonstration inputs used by witnesses and counterexamples -/

/-- Two sustained notes of velocity `0` plus one zero-duration note of
velocity `100`. -/
def demoEvents : List Event := [⟨0, 1, 60, 0⟩, ⟨0, 1, 64, 0⟩, ⟨0.02, 0.02, 67, 100⟩]

/-- Two consecutive frames with pitch sets `{60, 64}` and `{60, 64, 67}`. -/
def demoFrames : List FrameChord := [⟨0, 0.05, [60, 64]⟩, ⟨0.05, 0.1, [60, 64, 67]⟩]

/-- A frame with a non-empty pitch set followed by one with an empty set. -/
def emptySetFrames : List FrameChord := [⟨0, 0.1, [60]⟩, ⟨0.1, 0.2, ([] : List ℤ)⟩]

/-- Frames ordered by start time. -/
def frameT0Le (a b : FrameChord) : Prop := a.t0 ≤ b.t0

/-- Chord segments ordered by start time. -/
def segT0Le (a b : ChordSegment) : Prop := a.t0 ≤ b.t0

/-! ### General lemmas about the embedded operations -/

namespace NoteFilters

lemma perm_sort_by_onset (l : List Event) : List.Perm (sort_by_onset l) l :=
  List.perm_insertionSort onsetLe l

lemma coe_sort_by_onset (l : List Event) :
    (↑(sort_by_onset l) : Multiset Event) = ↑l :=
  Quot.sound (perm_sort_by_onset l)

lemma mem_sort_by_onset {x : Event} {l : List Event} :
    x ∈ sort_by_onset l ↔ x ∈ l :=
  (perm_sort_by_onset l).mem_iff

lemma sorted_sort_by_onset (l : List Event) :
    List.Sorted onsetLe (sort_by_onset l) :=
  List.sorted_insertionSort onsetLe l

lemma sort_by_onset_of_sorted {l : List Event} (h : List.Sorted onsetLe l) :
    sort_by_onset l = l :=
  h.insertionSort_eq

lemma mem_clamp_iff {x : Event} {events : List Event} {D : ℚ} :
    x ∈ clamp_events_to_audio events D ↔
      ∃ e ∈ events, e.onset < D ∧ clipEvent D e = x := by
  unfold clamp_events_to_audio
  rw [mem_sort_by_onset, List.mem_map]
  constructor
  · rintro ⟨e, he, rfl⟩
    rw [List.mem_filter] at he
    exact ⟨e, he.1, by simpa using he.2, rfl⟩
  · rintro ⟨e, he, hlt, rfl⟩
    exact ⟨e, List.mem_filter.mpr ⟨he, by simpa using hlt⟩, rfl⟩

lemma clamp_sorted (events : List Event) (D : ℚ) :
    List.Sorted onsetLe (clamp_events_to_audio events D) :=
  sorted_sort_by_onset _

end NoteFilters

open NoteFilters FrameChordExtractor

/-- C5: `clamp_events_to_audio` with audio duration `D` drops an event exactly
when its onset is `≥ D`; every retained event keeps its onset (and pitch and
velocity) and gets offset `max (min offset D) onset`, so every output event
has `offset ≥ onset`, and an event whose clipped offset falls back to its
onset is retained with duration `0` rather than dropped. -/
theorem clamp_events_characterization (events : List Event) (D : ℚ) :
    (↑(clamp_events_to_audio events D) : Multiset Event) =
      Multiset.map (clipEvent D) (Multiset.filter (fun e => e.onset < D) (↑events)) ∧
    (∀ e ∈ events, e.onset < D → clipEvent D e ∈ clamp_events_to_audio events D) ∧
    (∀ e, (clipEvent D e).onset = e.onset ∧ (clipEvent D e).midi = e.midi ∧
      (clipEvent D e).velocity = e.velocity ∧
      (clipEvent D e).offset = max (min e.offset D) e.onset) ∧
    (∀ x ∈ clamp_events_to_audio events D, x.onset ≤ x.offset) := by
  refine ⟨?_, ?_, ?_, ?_⟩
  · unfold clamp_events_to_audio
    rw [coe_sort_by_onset]
    simp [Multiset.map_coe, Multiset.filter_coe]
  · intro e he hlt
    exact mem_clamp_iff.mpr ⟨e, he, hlt, rfl⟩
  · intro e
    exact ⟨rfl, rfl, rfl, rfl⟩
  · intro x hx
    obtain ⟨e, _, _, rfl⟩ := mem_clamp_iff.mp hx
    exact le_max_right _ _

/-- Witness for C5 at a concrete input: an event ending after the audio and an
event with `offset < onset` are both retained and clipped, an event starting
beyond the audio is dropped. -/
theorem clamp_events_characterization_witness :
    clipEvent 1 ⟨0.75, 0.25, 62, 5⟩ ∈ clamp_events_to_audio
        [⟨2, 3, 60, 5⟩, ⟨0.5, 5, 61, 5⟩, ⟨0.75, 0.25, 62, 5⟩] 1 ∧
      clamp_events_to_audio [⟨2, 3, 60, 5⟩, ⟨0.5, 5, 61, 5⟩, ⟨0.75, 0.25, 62, 5⟩] 1 =
        [⟨0.5, 1, 61, 5⟩, ⟨0.75, 0.75, 62, 5⟩] :=
  ⟨(clamp_events_characterization
      [⟨2, 3, 60, 5⟩, ⟨0.5, 5, 61, 5⟩, ⟨0.75, 0.25, 62, 5⟩] 1).2.1
      ⟨0.75, 0.25, 62, 5⟩ (by decide) (by decide),
    by decide⟩

/-- C7: clamping is idempotent — re-clamping an already clamped list to the
same duration returns it unchanged. -/
theorem clamp_events_idempotent (E : List Event) (D : ℚ) :
    clamp_events_to_audio (clamp_events_to_audio E D) D =
      clamp_events_to_audio E D := by
  have hmem : ∀ x ∈ clamp_events_to_audio E D, x.onset < D ∧ x.onset ≤ x.offset ∧ x.offset ≤ D := by
    intro x hx
    obtain ⟨e, _, hlt, rfl⟩ := mem_clamp_iff.mp hx
    refine ⟨hlt, le_max_right _ _, ?_⟩
    simp only [clipEvent]
    exact max_le (min_le_right _ _) (le_of_lt hlt)
  have hfilter : (clamp_events_to_audio E D).filter
      (fun ev => decide (ev.onset < D)) = clamp_events_to_audio E D := by
    rw [List.filter_eq_self]
    intro x hx
    simpa using (hmem x hx).1
  have hmap : (clamp_events_to_audio E D).map (clipEvent D) =
      clamp_events_to_audio E D := by
    rw [show clamp_events_to_audio E D =
        (clamp_events_to_audio E D).map id from (List.map_id _).symm]
    rw [List.map_map]
    refine List.map_congr_left ?_
    intro x hx
    obtain ⟨hlt, hono, hoffD⟩ := hmem x ((List.map_id (clamp_events_to_audio E D)) ▸ hx)
    simp only [Function.comp, clipEvent, id]
    congr 1
    rw [min_eq_left hoffD, max_eq_left hono]
  conv_lhs => rw [clamp_events_to_audio, hfilter, hmap,
    sort_by_onset_of_sorted (clamp_sorted E D)]

lemma better_velocity (a b : Event) :
    (better a b).velocity = max a.velocity b.velocity := by
  unfold better scoreGe note_velocity note_duration
  split
  · next h =>
    have hba : b.velocity ≤ a.velocity := by
      rcases h with h | ⟨h, _⟩
      · exact le_of_lt h
      · exact le_of_eq h.symm
    exact (max_eq_left hba).symm
  · next h =>
    have hab : a.velocity ≤ b.velocity := by
      by_contra hc
      exact h (Or.inl (lt_of_not_le hc))
    exact (max_eq_right hab).symm

lemma better_eq_or (a b : Event) : better a b = a ∨ better a b = b := by
  unfold better
  split
  · exact Or.inl rfl
  · exact Or.inr rfl

lemma foldl_better_velocity (rest : List Event) (e : Event) :
    (rest.foldl better e).velocity =
      (rest.map NoteFilters.note_velocity).foldl max e.velocity := by
  induction rest generalizing e with
  | nil => rfl
  | cons x xs ih =>
      simp only [List.foldl_cons, List.map_cons]
      rw [ih, better_velocity]
      rfl

lemma foldl_max_eq (l : List ℤ) (x : ℤ) : l.foldl max x = maxIntOf (x :: l) := rfl

lemma bestEvent_velocity {l : List Event} {e : Event} (h : bestEvent l = some e) :
    e.velocity = maxIntOf (l.map NoteFilters.note_velocity) := by
  cases l with
  | nil => cases h
  | cons a rest =>
      simp only [bestEvent, Option.some.injEq] at h
      subst h
      rw [foldl_better_velocity]
      rfl

lemma foldl_better_mem (rest : List Event) (e : Event) :
    rest.foldl better e ∈ e :: rest := by
  induction rest generalizing e with
  | nil => simp
  | cons x xs ih =>
      simp only [List.foldl_cons]
      rcases List.mem_cons.mp (ih (better e x)) with h | h
      · rw [h]
        rcases better_eq_or e x with hb | hb <;> rw [hb] <;> simp
      · exact List.mem_cons_of_mem _ (List.mem_cons_of_mem _ h)

lemma bestEvent_mem {l : List Event} {e : Event} (h : bestEvent l = some e) :
    e ∈ l := by
  cases l with
  | nil => cases h
  | cons a rest =>
      simp only [bestEvent, Option.some.injEq] at h
      subst h
      exact foldl_better_mem rest a

lemma bestEvent_eq_none_iff {l : List Event} : bestEvent l = none ↔ l = [] := by
  cases l <;> simp [bestEvent]

lemma bestByMidi_velocity {cluster : List Event} {p : ℤ} {e : Event}
    (h : bestByMidi cluster p = some e) :
    e.velocity = maxIntOf (velsOf cluster p) :=
  bestEvent_velocity h

lemma bestByMidi_none_iff {cluster : List Event} {p : ℤ} :
    bestByMidi cluster p = none ↔ velsOf cluster p = [] := by
  unfold bestByMidi velsOf
  rw [bestEvent_eq_none_iff, List.map_eq_nil]

lemma isDropped_iff_spec (cluster : List Event) (ratio : ℚ) (p : ℤ) :
    isDropped cluster ratio p = true ↔ specHarmonicDrop cluster ratio p := by
  unfold isDropped specHarmonicDrop
  cases hb : bestByMidi cluster p with
  | none =>
      simp only [Bool.false_eq_true, false_iff, not_and]
      intro hne
      exact absurd (bestByMidi_none_iff.mp hb) hne
  | some evHigh =>
      have hne : velsOf cluster p ≠ [] := by
        intro h0
        rw [← bestByMidi_none_iff] at h0
        rw [hb] at h0
        cases h0
      rw [List.any_eq_true]
      constructor
      · rintro ⟨itv, hitv, hmatch⟩
        refine ⟨hne, itv, hitv, ?_⟩
        cases hbb : bestByMidi cluster (p - itv) with
        | none => rw [hbb] at hmatch; cases hmatch
        | some evBase =>
            rw [hbb] at hmatch
            simp only [decide_eq_true_eq] at hmatch
            refine ⟨?_, ?_⟩
            · intro h0
              rw [← bestByMidi_none_iff, hbb] at h0
              cases h0
            · rw [← bestByMidi_velocity hb, ← bestByMidi_velocity hbb]
              exact hmatch
      · rintro ⟨_, itv, hitv, hbase, hvel⟩
        refine ⟨itv, hitv, ?_⟩
        cases hbb : bestByMidi cluster (p - itv) with
        | none => exact absurd (bestByMidi_none_iff.mp hbb) hbase
        | some evBase =>
            simp only [decide_eq_true_eq]
            rw [← bestByMidi_velocity hb, ← bestByMidi_velocity hbb] at hvel
            exact hvel

/-- C3: `drop_likely_harmonics` removes exactly the events whose pitch has,
for some interval of `{12, 19, 24, 31}`, a represented base pitch whose
representative (best by velocity then duration) is at least
`harmonic_velocity_ratio` times as loud as the pitch's own representative;
concretely, in the cluster `{(60, vel 100), (72, vel 80)}` with ratio `1.15`
pitch `72` is removed, while with `vel(60) = 90` it survives. -/
theorem drop_likely_harmonics_characterization :
    (∀ (cluster : List Event) (ratio : ℚ) (ev : Event),
       ev ∈ drop_likely_harmonics cluster ratio ↔
         ev ∈ cluster ∧ ¬ specHarmonicDrop cluster ratio ev.midi) ∧
    drop_likely_harmonics [⟨0, 1, 60, 100⟩, ⟨0, 1, 72, 80⟩] 1.15 =
      [⟨0, 1, 60, 100⟩] ∧
    drop_likely_harmonics [⟨0, 1, 60, 90⟩, ⟨0, 1, 72, 80⟩] 1.15 =
      [⟨0, 1, 60, 90⟩, ⟨0, 1, 72, 80⟩] := by
  refine ⟨?_, by decide, by decide⟩
  intro cluster ratio ev
  cases cluster with
  | nil => simp [drop_likely_harmonics]
  | cons a rest =>
      unfold drop_likely_harmonics
      rw [mem_sort_by_onset, List.mem_filter]
      rw [Bool.not_eq_eq_eq_not, Bool.not_true] at *
      constructor
      · rintro ⟨hmem, hdrop⟩
        refine ⟨hmem, ?_⟩
        rw [← isDropped_iff_spec]
        simp [hdrop]
      · rintro ⟨hmem, hdrop⟩
        refine ⟨hmem, ?_⟩
        rw [← isDropped_iff_spec] at hdrop
        simpa using hdrop

lemma le_foldr_max {x : ℚ} : ∀ {l : List ℚ}, x ∈ l → x ≤ l.foldr max 0
  | a :: l, h => by
      rcases List.mem_cons.mp h with rfl | h
      · exact le_max_left _ _
      · exact le_trans (le_foldr_max h) (le_max_right _ _)

/-- C4: with the velocity override disabled, `adaptive_consistency_filter`
keeps an event exactly when its pitch occurs at least `min_occurrences` times
or its pitch's total duration reaches `min_total_dur_ratio_of_max` times the
greatest per-pitch total duration (threshold `0` when that maximum is `0`);
`maxTotalOf` really is the greatest per-pitch total; concretely, a pitch
occurring once with total duration `0.05` against `max_total = 1` and ratio
`0.1` is dropped at `min_occurrences = 2` and kept at `min_occurrences = 1`. -/
theorem adaptive_consistency_characterization :
    (∀ (events : List Event) (minOcc : ℕ) (ratio : ℚ), events ≠ [] →
       ∀ ev, ev ∈ adaptive_consistency_filter events minOcc ratio none ↔
         ev ∈ events ∧ (minOcc ≤ occOf events ev.midi ∨
           (if 0 < maxTotalOf events then ratio * maxTotalOf events else 0) ≤
             totDurOf events ev.midi)) ∧
    (∀ (events : List Event), ∀ m ∈ events.map (·.midi),
       totDurOf events m ≤ maxTotalOf events) ∧
    adaptive_consistency_filter [⟨0, 1, 60, 10⟩, ⟨2, 2.05, 72, 10⟩] 2 0.1 none =
      [⟨0, 1, 60, 10⟩] ∧
    adaptive_consistency_filter [⟨0, 1, 60, 10⟩, ⟨2, 2.05, 72, 10⟩] 1 0.1 none =
      [⟨0, 1, 60, 10⟩, ⟨2, 2.05, 72, 10⟩] := by
  refine ⟨?_, ?_, by decide, by decide⟩
  · intro events minOcc ratio hne ev
    obtain ⟨e, rest, rfl⟩ := List.exists_cons_of_ne_nil hne
    unfold adaptive_consistency_filter
    rw [mem_sort_by_onset, List.mem_filter]
    simp only [Bool.false_or, Bool.or_eq_true, decide_eq_true_eq]
  · intro events m hm
    rw [List.mem_map] at hm
    obtain ⟨ev, hev, rfl⟩ := hm
    unfold maxTotalOf
    exact le_foldr_max (List.mem_map.mpr ⟨ev, hev, rfl⟩)

/-- Counterexample for C2: when the open segment's set is `{60}` and the next
frame's set is empty, with merge threshold `0` the similarity test passes
(`jaccard {60} ∅ = 0 ≥ 0`), the spec's rule ("if either set is empty use the
other, non-empty one") predicts the merged set `{60}`, but the code replaces
the segment's set by the frame's empty set, so the final segment is dropped as
empty and `merge_frames` returns no segment at all. -/
theorem merge_frames_empty_set_counterexample :
    (0 : ℚ) ≤ jaccard ({60} : Finset ℤ) ∅ ∧
    specMergedSet ({60} : Finset ℤ) ∅ = {60} ∧
    codeMergedSet ({60} : Finset ℤ) ∅ = ∅ ∧
    codeMergedSet ({60} : Finset ℤ) ∅ ≠ specMergedSet ({60} : Finset ℤ) ∅ ∧
    merge_frames 0 0 emptySetFrames = [] := by decide

/-- C2 (amended): when the similarity is at least the threshold the open
segment is extended to the frame's end and its set becomes the intersection,
except that when either set is empty the FRAME's set is used (not the other
non-empty set); below the threshold the open segment is flushed and a new one
opens at the frame.  Concretely `{60,64}` vs `{60,64,67}` has Jaccard `2/3`:
no merge at threshold `0.85`, merge with resulting set `{60,64}` at `0.6`. -/
theorem merge_frames_step_characterization :
    (∀ (θ d cur0 cur1 : ℚ) (curSet : Finset ℤ) (fr : FrameChord)
       (rest : List FrameChord),
       (θ ≤ jaccard curSet fr.midis.toFinset →
         mergeLoop θ d cur0 cur1 curSet (fr :: rest) =
           mergeLoop θ d cur0 fr.t1
             (if curSet = ∅ ∨ fr.midis.toFinset = ∅ then fr.midis.toFinset
              else curSet ∩ fr.midis.toFinset) rest) ∧
       (jaccard curSet fr.midis.toFinset < θ →
         mergeLoop θ d cur0 cur1 curSet (fr :: rest) =
           emitSegment d cur0 cur1 curSet ++
             mergeLoop θ d fr.t0 fr.t1 fr.midis.toFinset rest)) ∧
    jaccard ([60, 64] : List ℤ).toFinset ([60, 64, 67] : List ℤ).toFinset = 2/3 ∧
    merge_frames 0.85 0 demoFrames =
      [⟨0, 0.05, [60, 64]⟩, ⟨0.05, 0.1, [60, 64, 67]⟩] ∧
    merge_frames 0.6 0 demoFrames = [⟨0, 0.1, [60, 64]⟩] := by
  refine ⟨?_, by decide, by decide, by decide⟩
  intro θ d cur0 cur1 curSet fr rest
  constructor
  · intro h
    simp only [mergeLoop]
    rw [if_pos h]
    congr 1
    unfold codeMergedSet
    by_cases h1 : curSet = ∅ <;> by_cases h2 : fr.midis.toFinset = ∅ <;>
      simp [h1, h2]
  · intro h
    simp only [mergeLoop]
    rw [if_neg (not_le.mpr h)]

/-- Witness for C2: both step rules of the characterization applied at
concrete inputs (the merging step at threshold `0.6`, the flushing step at
threshold `0.85`). -/
theorem merge_frames_step_characterization_witness :
    (mergeLoop 0.6 0 0 0.05 ([60, 64] : List ℤ).toFinset [⟨0.05, 0.1, [60, 64, 67]⟩] =
      mergeLoop 0.6 0 0 0.1
        (if ([60, 64] : List ℤ).toFinset = ∅ ∨ ([60, 64, 67] : List ℤ).toFinset = ∅ then
          ([60, 64, 67] : List ℤ).toFinset
         else ([60, 64] : List ℤ).toFinset ∩ ([60, 64, 67] : List ℤ).toFinset) []) ∧
    (mergeLoop 0.85 0 0 0.05 ([60, 64] : List ℤ).toFinset [⟨0.05, 0.1, [60, 64, 67]⟩] =
      emitSegment 0 0 0.05 ([60, 64] : List ℤ).toFinset ++
        mergeLoop 0.85 0 0.05 0.1 ([60, 64, 67] : List ℤ).toFinset []) :=
  ⟨(merge_frames_step_characterization.1 0.6 0 0 0.05 _ ⟨0.05, 0.1, [60, 64, 67]⟩ []).1
      (by decide),
    (merge_frames_step_characterization.1 0.85 0 0 0.05 _ ⟨0.05, 0.1, [60, 64, 67]⟩ []).2
      (by decide)⟩

/-- The single-frame run on `demoEvents`: the zero-duration velocity-100 note
of pitch 67 is discarded by normalization and the two velocity-0 notes fill
the frame. -/
lemma demo_frames_run :
    events_to_frame_chords 2 demoEvents 0.05 ⟨true, 0.05⟩ =
      .ok [⟨0, 0.05, [60, 64]⟩] := by
  unfold events_to_frame_chords
  rw [dif_neg (by norm_num)]
  rw [frameLoop, dif_pos (by decide), frameLoop, dif_neg (by decide)]
  simp only [Except.ok.injEq]
  decide

/-- C8: `events_to_frame_chords` fails with the configuration error exactly
when `frame_hop ≤ 0`, for every input; for every positive `frame_hop` it
returns normally. -/
theorem events_to_frame_chords_error_iff :
    ∀ (minActive : ℕ) (events : List Event) (dur : ℚ) (cfg : FrameConfig),
      (events_to_frame_chords minActive events dur cfg =
          Except.error "frame_hop must be > 0" ↔ cfg.frame_hop ≤ 0) ∧
      (0 < cfg.frame_hop →
        ∃ frames, events_to_frame_chords minActive events dur cfg =
          Except.ok frames) := by
  intro minActive events dur cfg
  unfold events_to_frame_chords
  by_cases h : cfg.frame_hop ≤ 0
  · rw [dif_pos h]
    exact ⟨iff_of_true rfl h, fun hpos => absurd hpos (not_lt.mpr h)⟩
  · rw [dif_neg h]
    exact ⟨iff_of_false (fun heq => by cases heq) h, fun _ => ⟨_, rfl⟩⟩

/-- Witness for C8: the no-error direction applied at a concrete positive
`frame_hop`. -/
theorem events_to_frame_chords_error_iff_witness :
    ∃ frames, events_to_frame_chords 2 demoEvents 0.05 ⟨true, 0.05⟩ =
      Except.ok frames :=
  (events_to_frame_chords_error_iff 2 demoEvents 0.05 ⟨true, 0.05⟩).2 (by decide)

lemma filter_erase_not_pass (q : Event → Bool) (ev : Event) (hq : q ev = false) :
    ∀ l : List Event, (l.erase ev).filter q = l.filter q := by
  intro l
  induction l with
  | nil => rfl
  | cons a l ih =>
      by_cases ha : a = ev
      · subst ha
        simp [List.erase_cons, List.filter_cons, hq]
      · simp only [List.erase_cons, beq_iff_eq, if_neg ha, List.filter_cons]
        rw [ih]

lemma normalize_erase {events : List Event} {ev : Event}
    (h : ev.offset ≤ ev.onset) :
    FrameChordExtractor.normalize (events.erase ev) =
      FrameChordExtractor.normalize events := by
  unfold FrameChordExtractor.normalize
  rw [filter_erase_not_pass _ ev (by simpa using not_lt.mpr h)]

lemma normalize_filter_pos (events : List Event) :
    FrameChordExtractor.normalize (events.filter fun e => decide (e.onset < e.offset)) =
      FrameChordExtractor.normalize events := by
  unfold FrameChordExtractor.normalize
  rw [List.filter_filter]
  simp only [Bool.and_self]

/-- C10: zero-duration events are discarded before the frame overlap test —
the frame extraction output depends only on the events with `offset > onset`,
and deleting any event with `offset ≤ onset` from the input leaves the output
unchanged. -/
theorem zero_duration_events_ignored :
    (∀ (minActive : ℕ) (events : List Event) (dur : ℚ) (cfg : FrameConfig),
       events_to_frame_chords minActive events dur cfg =
         events_to_frame_chords minActive
           (events.filter fun e => decide (e.onset < e.offset)) dur cfg) ∧
    (∀ (minActive : ℕ) (events : List Event) (dur : ℚ) (cfg : FrameConfig)
       (ev : Event), ev ∈ events → ev.offset ≤ ev.onset →
       events_to_frame_chords minActive (events.erase ev) dur cfg =
         events_to_frame_chords minActive events dur cfg) := by
  constructor
  · intro minActive events dur cfg
    unfold events_to_frame_chords
    rw [normalize_filter_pos]
  · intro minActive events dur cfg ev _ hzero
    unfold events_to_frame_chords
    rw [normalize_erase hzero]

/-- Witness for C10: deleting the zero-duration pitch-67 note from
`demoEvents` leaves the extracted frames unchanged. -/
theorem zero_duration_events_ignored_witness :
    events_to_frame_chords 2 (demoEvents.erase ⟨0.02, 0.02, 67, 100⟩) 0.05
        ⟨true, 0.05⟩ =
      events_to_frame_chords 2 demoEvents 0.05 ⟨true, 0.05⟩ :=
  zero_duration_events_ignored.2 2 demoEvents 0.05 ⟨true, 0.05⟩
    ⟨0.02, 0.02, 67, 100⟩ (by decide) (by decide)

lemma mem_msort {p : ℤ} {m : Multiset ℤ} : p ∈ msort m ↔ p ∈ m :=
  Quot.inductionOn m fun l => by simp [msort]

lemma mem_sortInt {p : ℤ} {s : Finset ℤ} : p ∈ sortInt s ↔ p ∈ s := by
  unfold sortInt
  rw [mem_msort]
  exact Iff.rfl

lemma mem_activeSet {p : ℤ} {norm : List NormEvent} {t0 t1 : ℚ} :
    p ∈ activeSet norm t0 t1 ↔
      ∃ n ∈ norm, n.midi = p ∧ n.onset < t1 ∧ t0 < n.offset := by
  simp only [activeSet, List.mem_toFinset, List.mem_map, List.mem_filter,
    Bool.and_eq_true, decide_eq_true_eq]
  constructor
  · rintro ⟨n, ⟨hn, h1, h2⟩, rfl⟩
    exact ⟨n, hn, rfl, h1, h2⟩
  · rintro ⟨n, hn, rfl, h1, h2⟩
    exact ⟨n, ⟨hn, h1, h2⟩, rfl⟩

lemma mem_normalize {n : NormEvent} {events : List Event} :
    n ∈ FrameChordExtractor.normalize events ↔
      ∃ ev ∈ events, ev.onset < ev.offset ∧
        n = ⟨ev.onset, ev.offset, ev.midi⟩ := by
  simp only [FrameChordExtractor.normalize, List.mem_map, List.mem_filter,
    decide_eq_true_eq]
  constructor
  · rintro ⟨ev, ⟨hev, hlt⟩, rfl⟩
    exact ⟨ev, hev, hlt, rfl⟩
  · rintro ⟨ev, hev, hlt, rfl⟩
    exact ⟨ev, ⟨hev, hlt⟩, rfl⟩

lemma frameLoop_shape (hop dur : ℚ) (hhop : 0 < hop) (minActive : ℕ)
    (norm : List NormEvent) (t : ℚ) :
    ∀ fr ∈ frameLoop hop dur hhop minActive norm t,
      fr.t1 = min (fr.t0 + hop) dur ∧
        fr.midis = sortInt (activeSet norm fr.t0 fr.t1) := by
  induction t using frameLoop.induct hop dur hhop minActive norm with
  | case1 x hx ih =>
      intro fr hfr
      rw [frameLoop, dif_pos hx] at hfr
      rcases List.mem_append.mp hfr with hhead | htail
      · split at hhead
        · rcases List.mem_singleton.mp hhead with rfl
          exact ⟨rfl, rfl⟩
        · cases hhead
      · exact ih fr htail
  | case2 x hx =>
      intro fr hfr
      rw [frameLoop, dif_neg hx] at hfr
      cases hfr

/-- Counterexample for C1: the code never consults a velocity floor (its
`FrameConfig` has no `frame_min_vel`) and discards zero-duration notes before
the overlap test.  With `frame_min_vel = 50`, the produced frame `[0, 0.05)`
contains pitch 60 although its only note has velocity `0 < 50`, and does not
contain pitch 67 although its note overlaps the frame with velocity
`100 ≥ 50` (it has zero duration). -/
theorem frame_active_min_vel_counterexample :
    events_to_frame_chords 2 demoEvents 0.05 ⟨true, 0.05⟩ =
      Except.ok [⟨0, 0.05, [60, 64]⟩] ∧
    (60 : ℤ) ∈ (⟨0, 0.05, [60, 64]⟩ : FrameChord).midis ∧
    ¬ specActiveWithMinVel 50 demoEvents 60 0 0.05 ∧
    specActiveWithMinVel 50 demoEvents 67 0 0.05 ∧
    (67 : ℤ) ∉ (⟨0, 0.05, [60, 64]⟩ : FrameChord).midis :=
  ⟨demo_frames_run, by decide, by decide, by decide, by decide⟩

/-- C1 (amended): for every produced frame `[t0, t1)`, a pitch is in the
frame's set exactly when some event of that pitch has positive duration
(`onset < offset`) and overlaps the frame (`onset < t1` and `offset > t0`);
velocity plays no role because the code's `FrameConfig` carries no
`frame_min_vel`. -/
theorem frame_pitch_membership :
    ∀ (minActive : ℕ) (events : List Event) (dur : ℚ) (cfg : FrameConfig)
      (frames : List FrameChord),
      events_to_frame_chords minActive events dur cfg = Except.ok frames →
      ∀ fr ∈ frames, ∀ p : ℤ,
        p ∈ fr.midis ↔
          ∃ ev ∈ events, ev.midi = p ∧ ev.onset < ev.offset ∧
            ev.onset < fr.t1 ∧ fr.t0 < ev.offset := by
  intro minActive events dur cfg frames hok fr hfr p
  unfold events_to_frame_chords at hok
  by_cases h : cfg.frame_hop ≤ 0
  · rw [dif_pos h] at hok
    cases hok
  · rw [dif_neg h] at hok
    injection hok with hok
    subst hok
    obtain ⟨-, hmidis⟩ :=
      frameLoop_shape cfg.frame_hop dur (not_le.mp h) minActive
        (FrameChordExtractor.normalize events) 0 fr hfr
    rw [hmidis, mem_sortInt, mem_activeSet]
    constructor
    · rintro ⟨n, hn, rfl, h1, h2⟩
      obtain ⟨ev, hev, hlt, rfl⟩ := mem_normalize.mp hn
      exact ⟨ev, hev, rfl, hlt, h1, h2⟩
    · rintro ⟨ev, hev, rfl, hlt, h1, h2⟩
      exact ⟨⟨ev.onset, ev.offset, ev.midi⟩,
        mem_normalize.mpr ⟨ev, hev, hlt, rfl⟩, rfl, h1, h2⟩

/-- Witness for C1: the membership characterization applied to the frame
produced from `demoEvents`. -/
theorem frame_pitch_membership_witness :
    (60 : ℤ) ∈ (⟨0, 0.05, [60, 64]⟩ : FrameChord).midis ↔
      ∃ ev ∈ demoEvents, ev.midi = 60 ∧ ev.onset < ev.offset ∧
        ev.onset < (⟨0, 0.05, [60, 64]⟩ : FrameChord).t1 ∧
        (⟨0, 0.05, [60, 64]⟩ : FrameChord).t0 < ev.offset :=
  frame_pitch_membership 2 demoEvents 0.05 ⟨true, 0.05⟩ [⟨0, 0.05, [60, 64]⟩]
    demo_frames_run ⟨0, 0.05, [60, 64]⟩ (by decide) 60

/-- Witness for C4: the characterization applied to the concrete two-event
list at `min_occurrences = 2`. -/
theorem adaptive_consistency_characterization_witness :
    ((⟨2, 2.05, 72, 10⟩ : Event) ∈
        adaptive_consistency_filter [⟨0, 1, 60, 10⟩, ⟨2, 2.05, 72, 10⟩] 2 0.1 none) ↔
      ((⟨2, 2.05, 72, 10⟩ : Event) ∈ ([⟨0, 1, 60, 10⟩, ⟨2, 2.05, 72, 10⟩] : List Event) ∧
        (2 ≤ occOf [⟨0, 1, 60, 10⟩, ⟨2, 2.05, 72, 10⟩] (72 : ℤ) ∨
          (if 0 < maxTotalOf [⟨0, 1, 60, 10⟩, ⟨2, 2.05, 72, 10⟩] then
            0.1 * maxTotalOf [⟨0, 1, 60, 10⟩, ⟨2, 2.05, 72, 10⟩] else 0) ≤
            totDurOf [⟨0, 1, 60, 10⟩, ⟨2, 2.05, 72, 10⟩] (72 : ℤ))) :=
  adaptive_consistency_characterization.1
    [⟨0, 1, 60, 10⟩, ⟨2, 2.05, 72, 10⟩] 2 0.1 (by decide) ⟨2, 2.05, 72, 10⟩

lemma adaptive_sorted (events : List Event) (mo : ℕ) (r : ℚ) (kv : Option ℤ) :
    List.Sorted onsetLe (adaptive_consistency_filter events mo r kv) := by
  cases events with
  | nil => exact List.sorted_nil
  | cons e rest => exact sorted_sort_by_onset _

lemma drop_harmonics_sorted (cluster : List Event) (ratio : ℚ) :
    List.Sorted onsetLe (drop_likely_harmonics cluster ratio) := by
  cases cluster with
  | nil => exact List.sorted_nil
  | cons e rest => exact sorted_sort_by_onset _

lemma pitch_class_sorted (cluster : List Event) :
    List.Sorted onsetLe (dedupe_pitch_class_in_cluster cluster) := by
  cases cluster with
  | nil => exact List.sorted_nil
  | cons e rest => exact sorted_sort_by_onset _

lemma apply_ABD_sorted (events : List Event) (cfg : FilterConfig) :
    List.Sorted onsetLe (apply_ABD events cfg) := by
  unfold apply_ABD
  by_cases hA : cfg.enable_A
  · simp only [hA, if_true]
    exact adaptive_sorted _ _ _ _
  · simp only [hA, if_false]
    by_cases hD : cfg.enable_D
    · simp only [hD, if_true]
      exact sorted_sort_by_onset _
    · simp only [hD, if_false]
      by_cases hB : cfg.enable_B
      · simp only [hB, if_true]
        exact sorted_sort_by_onset _
      · simp only [hB, if_false]
        exact sorted_sort_by_onset _

lemma frameLoop_t0_ge (hop dur : ℚ) (hhop : 0 < hop) (minActive : ℕ)
    (norm : List NormEvent) (t : ℚ) :
    ∀ fr ∈ frameLoop hop dur hhop minActive norm t, t ≤ fr.t0 := by
  induction t using frameLoop.induct hop dur hhop minActive norm with
  | case1 x hx ih =>
      intro fr hfr
      rw [frameLoop, dif_pos hx] at hfr
      rcases List.mem_append.mp hfr with hhead | htail
      · split at hhead
        · rcases List.mem_singleton.mp hhead with rfl
          exact le_refl _
        · cases hhead
      · exact le_trans (by linarith) (ih fr htail)
  | case2 x hx =>
      intro fr hfr
      rw [frameLoop, dif_neg hx] at hfr
      cases hfr

lemma frameLoop_sorted (hop dur : ℚ) (hhop : 0 < hop) (minActive : ℕ)
    (norm : List NormEvent) (t : ℚ) :
    List.Sorted frameT0Le (frameLoop hop dur hhop minActive norm t) := by
  induction t using frameLoop.induct hop dur hhop minActive norm with
  | case1 x hx ih =>
      rw [frameLoop, dif_pos hx]
      show List.Sorted frameT0Le
        ((if minActive ≤ (activeSet norm x (min (x + hop) dur)).card then
            [⟨x, min (x + hop) dur, sortInt (activeSet norm x (min (x + hop) dur))⟩]
          else []) ++ frameLoop hop dur hhop minActive norm (x + hop))
      split
      · rw [List.singleton_append, List.sorted_cons]
        refine ⟨?_, ih⟩
        intro fr hfr
        exact le_trans (by linarith) (frameLoop_t0_ge hop dur hhop minActive norm _ fr hfr)
      · rw [List.nil_append]
        exact ih
  | case2 x hx =>
      rw [frameLoop, dif_neg hx]
      exact List.sorted_nil

lemma emitSegment_t0 (d cur0 cur1 : ℚ) (curSet : Finset ℤ) :
    ∀ s ∈ emitSegment d cur0 cur1 curSet, s.t0 = cur0 := by
  intro s hs
  unfold emitSegment at hs
  split at hs
  · rcases List.mem_singleton.mp hs with rfl
    rfl
  · cases hs

lemma emitSegment_sorted (d cur0 cur1 : ℚ) (curSet : Finset ℤ) :
    List.Sorted segT0Le (emitSegment d cur0 cur1 curSet) := by
  unfold emitSegment
  split
  · exact List.sorted_singleton _
  · exact List.sorted_nil

lemma mergeLoop_t0_ge (θ d : ℚ) :
    ∀ (frames : List FrameChord) (cur0 cur1 : ℚ) (curSet : Finset ℤ),
      List.Sorted frameT0Le frames → (∀ fr ∈ frames, cur0 ≤ fr.t0) →
      ∀ s ∈ mergeLoop θ d cur0 cur1 curSet frames, cur0 ≤ s.t0 := by
  intro frames
  induction frames with
  | nil =>
      intro cur0 cur1 curSet _ _ s hs
      rw [emitSegment_t0 d cur0 cur1 curSet s hs]
  | cons fr rest ih =>
      intro cur0 cur1 curSet hsorted hge s hs
      rw [List.sorted_cons] at hsorted
      obtain ⟨hfr_rest, hrest⟩ := hsorted
      rw [mergeLoop] at hs
      split at hs
      · exact ih cur0 fr.t1 _ hrest
          (fun g hg => hge g (List.mem_cons_of_mem _ hg)) s hs
      · rcases List.mem_append.mp hs with hemit | hrec
        · rw [emitSegment_t0 d cur0 cur1 curSet s hemit]
        · exact le_trans (hge fr (List.mem_cons_self fr rest))
            (ih fr.t0 fr.t1 _ hrest hfr_rest s hrec)

lemma mergeLoop_sorted (θ d : ℚ) :
    ∀ (frames : List FrameChord) (cur0 cur1 : ℚ) (curSet : Finset ℤ),
      List.Sorted frameT0Le frames → (∀ fr ∈ frames, cur0 ≤ fr.t0) →
      List.Sorted segT0Le (mergeLoop θ d cur0 cur1 curSet frames) := by
  intro frames
  induction frames with
  | nil =>
      intro cur0 cur1 curSet _ _
      exact emitSegment_sorted d cur0 cur1 curSet
  | cons fr rest ih =>
      intro cur0 cur1 curSet hsorted hge
      rw [List.sorted_cons] at hsorted
      obtain ⟨hfr_rest, hrest⟩ := hsorted
      rw [mergeLoop]
      split
      · exact ih cur0 fr.t1 _ hrest (fun g hg => hge g (List.mem_cons_of_mem _ hg))
      · rw [List.Sorted, List.pairwise_append]
        refine ⟨emitSegment_sorted d cur0 cur1 curSet,
          ih fr.t0 fr.t1 _ hrest hfr_rest, ?_⟩
        intro a ha b hb
        show a.t0 ≤ b.t0
        rw [emitSegment_t0 d cur0 cur1 curSet a ha]
        exact le_trans (hge fr (List.mem_cons_self fr rest))
          (mergeLoop_t0_ge θ d rest fr.t0 fr.t1 _ hrest hfr_rest b hb)

/-- C6: every pipeline stage's output is sorted — `clamp_events_to_audio`,
each individual filter stage, and `apply_ABD` by onset; the frames of
`events_to_frame_chords` and (given start-sorted frames, as produced) the
segments of `merge_frames` by start time. -/
theorem pipeline_sort_invariant :
    (∀ (events : List Event) (D : ℚ),
       List.Sorted onsetLe (clamp_events_to_audio events D)) ∧
    (∀ (cluster : List Event) (w : ℚ),
       List.Sorted onsetLe (dedupe_same_pitch_in_cluster cluster w)) ∧
    (∀ cluster : List Event,
       List.Sorted onsetLe (dedupe_pitch_class_in_cluster cluster)) ∧
    (∀ (cluster : List Event) (k : ℕ),
       List.Sorted onsetLe (keep_top_k_in_cluster cluster k)) ∧
    (∀ (events : List Event) (w : ℚ),
       List.Sorted onsetLe (dedupe_same_midi_globally events w)) ∧
    (∀ (cluster : List Event) (ratio : ℚ),
       List.Sorted onsetLe (drop_likely_harmonics cluster ratio)) ∧
    (∀ (events : List Event) (mo : ℕ) (r : ℚ) (kv : Option ℤ),
       List.Sorted onsetLe (adaptive_consistency_filter events mo r kv)) ∧
    (∀ (events : List Event) (cfg : FilterConfig),
       List.Sorted onsetLe (apply_ABD events cfg)) ∧
    (∀ (minActive : ℕ) (events : List Event) (dur : ℚ) (cfg : FrameConfig)
       (frames : List FrameChord),
       events_to_frame_chords minActive events dur cfg = Except.ok frames →
       List.Sorted frameT0Le frames) ∧
    (∀ (θ d : ℚ) (frames : List FrameChord), List.Sorted frameT0Le frames →
       List.Sorted segT0Le (merge_frames θ d frames)) := by
  refine ⟨fun events D => clamp_sorted events D,
    fun cluster w => sorted_sort_by_onset _,
    fun cluster => pitch_class_sorted cluster,
    fun cluster k => sorted_sort_by_onset _,
    fun events w => sorted_sort_by_onset _,
    fun cluster ratio => drop_harmonics_sorted cluster ratio,
    fun events mo r kv => adaptive_sorted events mo r kv,
    fun events cfg => apply_ABD_sorted events cfg,
    ?_, ?_⟩
  · intro minActive events dur cfg frames hok
    unfold events_to_frame_chords at hok
    by_cases h : cfg.frame_hop ≤ 0
    · rw [dif_pos h] at hok
      cases hok
    · rw [dif_neg h] at hok
      injection hok with hok
      subst hok
      exact frameLoop_sorted _ _ _ _ _ _
  · intro θ d frames hsorted
    cases frames with
    | nil => exact List.sorted_nil
    | cons f rest =>
        rw [List.sorted_cons] at hsorted
        exact mergeLoop_sorted θ d rest f.t0 f.t1 _ hsorted.2 hsorted.1

/-- Witness for C6: the two conditional conjuncts applied at concrete inputs —
the frame list extracted from `demoEvents` is start-sorted, and merging the
start-sorted `demoFrames` yields a start-sorted segment list. -/
theorem pipeline_sort_invariant_witness :
    List.Sorted frameT0Le [(⟨0, 0.05, [60, 64]⟩ : FrameChord)] ∧
    List.Sorted segT0Le (merge_frames 0.6 0 demoFrames) :=
  ⟨pipeline_sort_invariant.2.2.2.2.2.2.2.2.1 2 demoEvents 0.05 ⟨true, 0.05⟩
      [⟨0, 0.05, [60, 64]⟩] demo_frames_run,
    pipeline_sort_invariant.2.2.2.2.2.2.2.2.2 0.6 0 demoFrames
      (by unfold demoFrames
          rw [List.sorted_cons]
          refine ⟨?_, List.sorted_singleton _⟩
          intro b hb
          rcases List.mem_singleton.mp hb with rfl
          show (0 : ℚ) ≤ 0.05
          norm_num)⟩

lemma head?_mem {x : Event} : ∀ {l : List Event}, l.head? = some x → x ∈ l
  | a :: _, h => by
      injection h with h
      exact h ▸ List.mem_cons_self a _

lemma coe_filter_le (l : List Event) (p : Event → Bool) :
    (↑(l.filter p) : Multiset Event) ≤ ↑l :=
  Multiset.coe_le.mpr (l.filter_sublist).subperm

lemma coe_take_le (l : List Event) (k : ℕ) :
    (↑(l.take k) : Multiset Event) ≤ ↑l :=
  Multiset.coe_le.mpr (List.take_sublist k l).subperm

lemma coe_insertionSort (r : Event → Event → Prop) [DecidableRel r]
    (l : List Event) : (↑(List.insertionSort r l) : Multiset Event) = ↑l :=
  Quot.sound (List.perm_insertionSort r l)

lemma clusterLoop_flatten (w : ℚ) :
    ∀ (rest current : List Event) (anchor : ℚ),
      (clusterLoop w current anchor rest).flatMap id = current ++ rest := by
  intro rest
  induction rest with
  | nil => intro current anchor; simp [clusterLoop]
  | cons ev r ih =>
      intro current anchor
      simp only [clusterLoop]
      split
      · rw [ih]
        simp
      · rw [List.flatMap_cons, ih]
        simp

lemma cluster_flatten (events : List Event) (w : ℚ) :
    (cluster_by_onset events w).flatMap id = sort_by_onset events := by
  unfold cluster_by_onset
  cases h : sort_by_onset events with
  | nil => simp
  | cons e rest =>
      rw [clusterLoop_flatten]
      simp

lemma flatMap_le_flatMap {α : Type} (l : List α) (f g : α → List Event)
    (h : ∀ x ∈ l, (↑(f x) : Multiset Event) ≤ ↑(g x)) :
    (↑(l.flatMap f) : Multiset Event) ≤ ↑(l.flatMap g) := by
  induction l with
  | nil => simp
  | cons a t ih =>
      rw [List.flatMap_cons, List.flatMap_cons, ← Multiset.coe_add,
        ← Multiset.coe_add]
      exact add_le_add (h a (List.mem_cons_self a t))
        (ih fun x hx => h x (List.mem_cons_of_mem _ hx))

lemma clusters_flatMap_le (events : List Event) (w : ℚ)
    (f : List Event → List Event)
    (h : ∀ c, (↑(f c) : Multiset Event) ≤ ↑c) :
    (↑((cluster_by_onset events w).flatMap f) : Multiset Event) ≤ ↑events := by
  refine le_trans (flatMap_le_flatMap _ f id fun c _ => h c) ?_
  rw [cluster_flatten, coe_sort_by_onset]

lemma addToGroups_flatten {κ : Type} [DecidableEq κ]
    (gs : List (κ × List Event)) (k : κ) (a : Event) :
    (↑((addToGroups gs k a).flatMap Prod.snd) : Multiset Event) =
      ↑(gs.flatMap Prod.snd) + {a} := by
  induction gs with
  | nil => simp [addToGroups]
  | cons g rest ih =>
      obtain ⟨k', gl⟩ := g
      simp only [addToGroups]
      split
      · simp only [List.flatMap_cons, ← Multiset.coe_add, Multiset.coe_singleton]
        rw [add_right_comm]
      · simp only [List.flatMap_cons, ← Multiset.coe_add, ih]
        rw [add_assoc]

lemma groupByKey_flatten {κ : Type} [DecidableEq κ] (key : Event → κ)
    (l : List Event) :
    (↑((groupByKey key l).flatMap Prod.snd) : Multiset Event) = ↑l := by
  unfold groupByKey
  suffices h : ∀ (l : List Event) (gs : List (κ × List Event)),
      (↑((l.foldl (fun gs a => addToGroups gs (key a) a) gs).flatMap
        Prod.snd) : Multiset Event) = ↑(gs.flatMap Prod.snd) + ↑l by
    simpa using h l []
  intro l
  induction l with
  | nil => intro gs; simp
  | cons a t ih =>
      intro gs
      rw [List.foldl_cons, ih, addToGroups_flatten, ← Multiset.cons_coe]
      rw [add_assoc, Multiset.singleton_add]

lemma samePitchScan_le (w : ℚ) :
    ∀ (l : List Event) (best : Event),
      (↑(samePitchScan w best l) : Multiset Event) ≤ best ::ₘ ↑l := by
  intro l
  induction l with
  | nil =>
      intro best
      simp [samePitchScan]
  | cons ev rest ih =>
      intro best
      simp only [samePitchScan]
      split
      · refine le_trans (ih (better best ev)) ?_
        rw [← Multiset.cons_coe]
        rcases better_eq_or best ev with hb | hb <;> rw [hb]
        · exact Multiset.cons_le_cons best (Multiset.le_cons_self _ ev)
        · rw [Multiset.cons_swap]
          exact Multiset.cons_le_cons ev (Multiset.le_cons_self _ best)
      · rw [← Multiset.cons_coe, ← Multiset.cons_coe]
        exact Multiset.cons_le_cons best (ih ev)

lemma samePitchGroup_le (w : ℚ) (g : List Event) :
    (↑(samePitchGroup w g) : Multiset Event) ≤ ↑g := by
  unfold samePitchGroup
  cases h : sort_by_onset g with
  | nil => simp
  | cons e rest =>
      refine le_trans (samePitchScan_le w rest e) ?_
      rw [Multiset.cons_coe, ← h, coe_sort_by_onset]

lemma dedupe_same_pitch_le (cluster : List Event) (w : ℚ) :
    (↑(dedupe_same_pitch_in_cluster cluster w) : Multiset Event) ≤ ↑cluster := by
  unfold dedupe_same_pitch_in_cluster
  rw [coe_sort_by_onset]
  refine le_trans (flatMap_le_flatMap _ _ Prod.snd fun g _ => samePitchGroup_le w g.2) ?_
  rw [groupByKey_flatten, coe_sort_by_onset]

lemma filterMap_le {κ : Type} (gs : List (κ × List Event))
    (f : κ × List Event → Option Event)
    (h : ∀ g ∈ gs, ∀ x, f g = some x → x ∈ g.2) :
    (↑(gs.filterMap f) : Multiset Event) ≤ ↑(gs.flatMap Prod.snd) := by
  induction gs with
  | nil => simp
  | cons g rest ih =>
      rw [List.filterMap_cons, List.flatMap_cons, ← Multiset.coe_add]
      have ihr := ih fun g' hg' => h g' (List.mem_cons_of_mem _ hg')
      cases hf : f g with
      | none => exact le_trans ihr (Multiset.le_add_left _ _)
      | some x =>
          rw [← Multiset.cons_coe, ← Multiset.singleton_add]
          exact add_le_add
            (Multiset.singleton_le.mpr (h g (List.mem_cons_self g rest) x hf)) ihr

lemma dedupe_pitch_class_le (cluster : List Event) :
    (↑(dedupe_pitch_class_in_cluster cluster) : Multiset Event) ≤ ↑cluster := by
  cases cluster with
  | nil => simp [dedupe_pitch_class_in_cluster]
  | cons a t =>
      show (↑(sort_by_onset _) : Multiset Event) ≤ _
      rw [coe_sort_by_onset]
      refine le_trans (filterMap_le _ _ ?_) ?_
      · intro g _ x hx
        have := head?_mem hx
        rwa [List.mem_insertionSort] at this
      · rw [groupByKey_flatten]

lemma keep_top_k_le (cluster : List Event) (k : ℕ) :
    (↑(keep_top_k_in_cluster cluster k) : Multiset Event) ≤ ↑cluster := by
  unfold keep_top_k_in_cluster
  rw [coe_sort_by_onset]
  refine le_trans (coe_take_le _ k) ?_
  rw [coe_insertionSort]

lemma lookupAssoc_vals (m : List (ℤ × Event)) (k : ℤ) (v prev : Event)
    (h : lookupAssoc m k = some prev) :
    (↑((updateAssoc m k v).map Prod.snd) : Multiset Event) + {prev} =
      {v} + ↑(m.map Prod.snd) := by
  induction m with
  | nil => cases h
  | cons p rest ih =>
      obtain ⟨k', v'⟩ := p
      simp only [lookupAssoc] at h
      simp only [updateAssoc]
      by_cases hk : k = k'
      · rw [if_pos hk] at h ⊢
        injection h with h
        subst h
        simp only [List.map_cons, ← Multiset.cons_coe, ← Multiset.singleton_add]
        abel
      · rw [if_neg hk] at h ⊢
        simp only [List.map_cons, ← Multiset.cons_coe, ← Multiset.singleton_add]
        rw [add_assoc, ih h]
        abel

lemma globalScan_le (w : ℚ) :
    ∀ (l : List Event) (last : List (ℤ × Event)) (kept : List Event),
      (↑(globalScan w last kept l) : Multiset Event) ≤
        ↑kept + ↑(last.map Prod.snd) + ↑l := by
  intro l
  induction l with
  | nil =>
      intro last kept
      simp only [globalScan, ← Multiset.coe_add]
      simp
  | cons ev rest ih =>
      intro last kept
      simp only [globalScan]
      cases hlook : lookupAssoc last ev.midi with
      | none =>
          simp only [hlook]
          refine le_trans (ih _ kept) (le_of_eq ?_)
          simp only [List.map_append, List.map_cons, List.map_nil,
            ← Multiset.coe_add, Multiset.coe_singleton, ← Multiset.cons_coe,
            ← Multiset.singleton_add]
          abel
      | some prev =>
          simp only [hlook]
          split
          · refine le_trans (ih _ kept) ?_
            have hval := lookupAssoc_vals last ev.midi (better prev ev) prev hlook
            rcases better_eq_or prev ev with hb | hb <;> rw [hb] at hval ⊢
            · have hvals : (↑((updateAssoc last ev.midi prev).map Prod.snd) :
                  Multiset Event) = ↑(last.map Prod.snd) :=
                add_right_cancel (hval.trans (add_comm _ _))
              rw [hvals]
              refine add_le_add (le_refl _) ?_
              rw [← Multiset.cons_coe]
              exact Multiset.le_cons_self _ ev
            · have hle : (↑((updateAssoc last ev.midi ev).map Prod.snd) :
                  Multiset Event) ≤ {ev} + ↑(last.map Prod.snd) := by
                rw [← hval]
                exact Multiset.le_add_right _ _
              refine le_trans
                (add_le_add (add_le_add (le_refl (↑kept : Multiset Event)) hle)
                  (le_refl (↑rest : Multiset Event))) (le_of_eq ?_)
              simp only [← Multiset.cons_coe, ← Multiset.singleton_add]
              abel
          · refine le_trans (ih _ (kept ++ [prev])) (le_of_eq ?_)
            have hval := lookupAssoc_vals last ev.midi ev prev hlook
            have h2 : (↑(kept ++ [prev]) : Multiset Event) +
                ↑((updateAssoc last ev.midi ev).map Prod.snd) + ↑rest =
                ↑kept + (↑((updateAssoc last ev.midi ev).map Prod.snd) +
                  ({prev} : Multiset Event)) + ↑rest := by
              simp only [← Multiset.coe_add, Multiset.coe_singleton,
                ← Multiset.singleton_add]
              abel
            rw [h2, hval]
            simp only [← Multiset.cons_coe, ← Multiset.singleton_add]
            abel

lemma dedupe_same_midi_le (events : List Event) (w : ℚ) :
    (↑(dedupe_same_midi_globally events w) : Multiset Event) ≤ ↑events := by
  unfold dedupe_same_midi_globally
  rw [coe_sort_by_onset]
  refine le_trans (globalScan_le w _ [] []) ?_
  simp [coe_sort_by_onset]

lemma drop_harmonics_le (cluster : List Event) (ratio : ℚ) :
    (↑(drop_likely_harmonics cluster ratio) : Multiset Event) ≤ ↑cluster := by
  cases cluster with
  | nil => simp [drop_likely_harmonics]
  | cons a t =>
      show (↑(sort_by_onset _) : Multiset Event) ≤ _
      rw [coe_sort_by_onset]
      exact coe_filter_le _ _

lemma adaptive_le (events : List Event) (mo : ℕ) (r : ℚ) (kv : Option ℤ) :
    (↑(adaptive_consistency_filter events mo r kv) : Multiset Event) ≤ ↑events := by
  cases events with
  | nil => simp [adaptive_consistency_filter]
  | cons a t =>
      show (↑(sort_by_onset _) : Multiset Event) ≤ _
      rw [coe_sort_by_onset]
      exact coe_filter_le _ _

lemma perClusterB_le (dw : ℚ) (k : ℕ) (c : List Event) :
    (↑(keep_top_k_in_cluster
        (dedupe_pitch_class_in_cluster (dedupe_same_pitch_in_cluster c dw)) k) :
      Multiset Event) ≤ ↑c :=
  le_trans (keep_top_k_le _ k)
    (le_trans (dedupe_pitch_class_le _) (dedupe_same_pitch_le c dw))

/-- C9: `apply_ABD` only drops or reorders events — its output is a
sub-multiset of its input (so every output event is an unchanged input event,
and the output is never longer than the input). -/
theorem apply_ABD_submultiset :
    ∀ (events : List Event) (cfg : FilterConfig),
      (↑(apply_ABD events cfg) : Multiset Event) ≤ ↑events ∧
      (∀ ev ∈ apply_ABD events cfg, ev ∈ events) ∧
      (apply_ABD events cfg).length ≤ events.length := by
  intro events cfg
  have hmain : (↑(apply_ABD events cfg) : Multiset Event) ≤ ↑events := by
    have hBstage : ∀ l : List Event,
        (↑(dedupe_same_midi_globally
            ((cluster_by_onset l cfg.cluster_window).flatMap fun c =>
              keep_top_k_in_cluster
                (dedupe_pitch_class_in_cluster
                  (dedupe_same_pitch_in_cluster c cfg.dedupe_window))
                cfg.max_notes_per_cluster)
            cfg.dedupe_window) : Multiset Event) ≤ ↑l := fun l =>
      le_trans (dedupe_same_midi_le _ _)
        (clusters_flatMap_le l _ _
          (perClusterB_le cfg.dedupe_window cfg.max_notes_per_cluster))
    have hDstage : ∀ l : List Event,
        (↑(sort_by_onset
            ((cluster_by_onset l cfg.cluster_window).flatMap fun c =>
              drop_likely_harmonics c cfg.harmonic_velocity_ratio)) :
          Multiset Event) ≤ ↑l := fun l => by
      rw [coe_sort_by_onset]
      exact clusters_flatMap_le l _ _
        (fun c => drop_harmonics_le c cfg.harmonic_velocity_ratio)
    have hsort := coe_sort_by_onset events
    unfold apply_ABD
    by_cases hB : cfg.enable_B
    · by_cases hD : cfg.enable_D
      · by_cases hA : cfg.enable_A
        · simp only [hB, hD, hA, if_true]
          exact le_trans (adaptive_le _ _ _ _)
            (le_trans (hDstage _) (le_trans (hBstage _) (le_of_eq hsort)))
        · simp only [hB, hD, hA, if_true, if_false]
          exact le_trans (hDstage _) (le_trans (hBstage _) (le_of_eq hsort))
      · by_cases hA : cfg.enable_A
        · simp only [hB, hD, hA, if_true, if_false]
          exact le_trans (adaptive_le _ _ _ _)
            (le_trans (hBstage _) (le_of_eq hsort))
        · simp only [hB, hD, hA, if_true, if_false]
          exact le_trans (hBstage _) (le_of_eq hsort)
    · by_cases hD : cfg.enable_D
      · by_cases hA : cfg.enable_A
        · simp only [hB, hD, hA, if_true, if_false]
          exact le_trans (adaptive_le _ _ _ _)
            (le_trans (hDstage _) (le_of_eq hsort))
        · simp only [hB, hD, hA, if_true, if_false]
          exact le_trans (hDstage _) (le_of_eq hsort)
      · by_cases hA : cfg.enable_A
        · simp only [hB, hD, hA, if_true, if_false]
          exact le_trans (adaptive_le _ _ _ _) (le_of_eq hsort)
        · simp only [hB, hD, hA, if_true, if_false]
          exact le_of_eq hsort
  refine ⟨hmain, ?_, ?_⟩
  · intro ev hev
    have : ev ∈ (↑(apply_ABD events cfg) : Multiset Event) := by
      simpa using hev
    simpa using Multiset.mem_of_le hmain this
  · have := Multiset.card_le_card hmain
    simpa using this
